import Mathlib

/-
Shallow embedding of src/pagerank.py (functions transition_model,
sample_pagerank, iterate_pagerank, estimate_page_rank).

Python dicts are modelled as insertion-ordered association lists with
distinct keys; Python floats are modelled as exact rationals; the random
source (random.choice / random.choices) is modelled as an arbitrary
index oracle, so theorems quantified over the oracle hold for every
outcome of the random source; the unbounded while loop of
iterate_pagerank is modelled with explicit fuel returning Option.
-/

namespace PageRank

abbrev Page := String

abbrev Table (α : Type) := List (Page × α)

/-- LinkGraph: mapping from page to the list of pages it links to. -/
abbrev Graph := Table (List Page)

/-- Keys of a dict, in insertion order (Python list(d.keys())). -/
def keys {α : Type} (t : Table α) : List Page := t.map Prod.fst

/-- Dict lookup: first entry with the given key (d[p]). -/
def lookup {α : Type} : Table α → Page → Option α
  | [], _ => none
  | (q, v) :: t, p => if q = p then some v else lookup t p

/-- Dict lookup with a default value. -/
def lookupD {α : Type} (t : Table α) (p : Page) (v : α) : α :=
  (lookup t p).getD v

/-- Dict in-place update d[p] = v (updates the existing entry, keeps order). -/
def setVal {α : Type} : Table α → Page → α → Table α
  | [], _, _ => []
  | (a, b) :: t, p, v =>
      if a = p then (a, v) :: setVal t p v else (a, b) :: setVal t p v

/-- Python dict.fromkeys(ks, v). -/
def fromkeys {α : Type} (ks : List Page) (v : α) : Table α :=
  ks.map (fun k => (k, v))

/-- The link list of a page: corpus[page] (empty when the key is absent). -/
def getLinks (corpus : Graph) (p : Page) : List Page :=
  lookupD corpus p []

/-- Dict update d[p] += v on a rational-valued dict. -/
def addVal : Table ℚ → Page → ℚ → Table ℚ
  | [], _, _ => []
  | (a, b) :: t, p, v =>
      if a = p then (a, b + v) :: addVal t p v else (a, b) :: addVal t p v

/-- Sum of the values of a rational-valued dict. -/
def valuesSum (t : Table ℚ) : ℚ := (t.map Prod.snd).sum

/-- Sum of the values of a natural-valued dict (visit counts). -/
def countsSum (t : Table Nat) : Nat := (t.map Prod.snd).sum

/-- Embedding of transition_model (src/pagerank.py lines 51-83). -/
def transition_model (corpus : Graph) (page : Page) (d : ℚ) : Table ℚ :=
  let total_pages : ℚ := (corpus.length : ℚ)
  let links := getLinks corpus page
  let num_links := links.length
  if num_links = 0 then
    fromkeys (keys corpus) (1 / total_pages)
  else
    let random_chance := (1 - d) / total_pages
    let link_chance := d / (num_links : ℚ)
    let dist := fromkeys (keys corpus) random_chance
    links.foldl (fun dst lp => addVal dst lp link_chance) dist

/-- Three-page chain graph from §8 of the spec: {A: {B}, B: {C}, C: {}}. -/
def chainGraph : Graph := [("A", ["B"]), ("B", ["C"]), ("C", [])]

/-- Single-page boundary graph from §8 of the spec: {A: {}}. -/
def singleGraph : Graph := [("A", [])]

/-- Dict update d[p] += 1 on the visit-count dict. -/
def incr : Table Nat → Page → Table Nat
  | [], _ => []
  | (a, c) :: t, p =>
      if a = p then (a, c + 1) :: incr t p else (a, c) :: incr t p

/-- Oracle model of the random source: draw k selects index o k into the
offered population, so quantifying over o covers every outcome of
random.choice and random.choices. -/
def pick (l : List Page) (i : Nat) : Page := l.getD (i % l.length) ""

/-- Sampling loop of sample_pagerank (src/pagerank.py lines 104-110): k
remaining draws, i the position in the oracle stream; each draw comes from
the keys of the current distribution, the distribution is recomputed from
the drawn page, and the drawn page's count is incremented. -/
def sampleSteps (corpus : Graph) (d : ℚ) (o : Nat → Nat) :
    Nat → Nat → Table Nat → Table ℚ → Table Nat
  | 0, _, samples, _ => samples
  | k + 1, i, samples, dist =>
      let page := pick (keys dist) (o i)
      let dist2 := transition_model corpus page d
      sampleSteps corpus d o k (i + 1) (incr samples page) dist2

/-- Visit counts accumulated by sample_pagerank (lines 96-110): random
start page, then n - 1 weighted draws. -/
def sampleCounts (corpus : Graph) (d : ℚ) (n : Nat) (o : Nat → Nat) :
    Table Nat :=
  let page := pick (keys corpus) (o 0)
  let dist := transition_model corpus page d
  let samples := fromkeys (keys corpus) 0
  sampleSteps corpus d o (n - 1) 1 (incr samples page) dist

/-- Failure modes of the embedded functions: the Python exceptions the code
actually raises (IndexError from random.choice on an empty sequence,
ZeroDivisionError from division by zero) and the EmptyGraphError condition
named by the spec, which lets the spec's claim about it be stated. -/
inductive Err
  | indexError
  | zeroDivisionError
  | emptyGraphError
deriving DecidableEq

/-- Embedding of sample_pagerank (lines 86-117). On an empty corpus,
random.choice raises IndexError before anything else runs; with n = 0 the
final count / n division raises ZeroDivisionError. -/
def sample_pagerank (corpus : Graph) (d : ℚ) (n : Nat) (o : Nat → Nat) :
    Except Err (Table ℚ) :=
  if keys corpus = [] then .error .indexError
  else if n = 0 then .error .zeroDivisionError
  else .ok ((sampleCounts corpus d n o).map
    (fun e => (e.1, (e.2 : ℚ) / (n : ℚ))))

/-- Backlink index built by iterate_pagerank (lines 129-139): for each page,
the pages (in corpus order) that link to it or have no links at all. -/
def linking_pages_dict (corpus : Graph) : Table (List Page) :=
  (keys corpus).map (fun page =>
    (page, (keys corpus).filter
      (fun lp => decide (page ∈ getLinks corpus lp ∨ getLinks corpus lp = []))))

/-- Embedding of estimate_page_rank (lines 164-178). -/
def estimate_page_rank (corpus : Graph) (d : ℚ) (total_pages : Nat)
    (current_page_ranks : Table ℚ) (linking : List Page) : ℚ :=
  let component := linking.foldl
    (fun acc lp =>
      let num_links := (getLinks corpus lp).length
      if num_links = 0 then
        acc + lookupD current_page_ranks lp 0 / (total_pages : ℚ)
      else
        acc + lookupD current_page_ranks lp 0 / (num_links : ℚ)) 0
  (1 - d) / (total_pages : ℚ) + d * component

/-- Convergence threshold of iterate_pagerank (line 146). -/
def threshold : ℚ := 1 / 1000

/-- One pass of the convergence loop (lines 147-159): processes the pages
in corpus order, updating page_rank in place, and flags (loop = true) any
page whose change exceeds the threshold. -/
def iterateRound (corpus : Graph) (d : ℚ) (total_pages : Nat)
    (backlinks : Table (List Page)) :
    List Page → Table ℚ → Bool → Table ℚ × Bool
  | [], page_rank, loop => (page_rank, loop)
  | page :: rest, page_rank, loop =>
      let estimate := estimate_page_rank corpus d total_pages page_rank
        (lookupD backlinks page [])
      let current := lookupD page_rank page 0
      let loop2 :=
        if threshold < current - estimate ∨ threshold < estimate - current
        then true else loop
      iterateRound corpus d total_pages backlinks rest
        (setVal page_rank page estimate) loop2

/-- The while loop of iterate_pagerank (lines 145-159) with explicit fuel:
none means the loop has not converged within fuel rounds. -/
def iterLoop (corpus : Graph) (d : ℚ) (total_pages : Nat)
    (backlinks : Table (List Page)) : Nat → Table ℚ → Option (Table ℚ)
  | 0, _ => none
  | fuel + 1, page_rank =>
      match iterateRound corpus d total_pages backlinks (keys corpus)
          page_rank false with
      | (pr2, true) => iterLoop corpus d total_pages backlinks fuel pr2
      | (pr2, false) => some pr2

/-- Embedding of iterate_pagerank (lines 120-161). The backlink index is
built first; on an empty corpus the initialization 1 / total_pages raises
ZeroDivisionError. -/
def iterate_pagerank (corpus : Graph) (d : ℚ) (fuel : Nat) :
    Option (Except Err (Table ℚ)) :=
  let backlinks := linking_pages_dict corpus
  let total_pages := corpus.length
  if total_pages = 0 then some (.error .zeroDivisionError)
  else
    (iterLoop corpus d total_pages backlinks fuel
      (fromkeys (keys corpus) (1 / (total_pages : ℚ)))).map .ok

/-- Modelled from the spec: one snapshot (Jacobi) round of the update rule,
in which every page's estimate for the round reads the same start-of-round
rank table, never a value updated earlier in the same round. -/
def snapshotRound (corpus : Graph) (d : ℚ) (total_pages : Nat)
    (backlinks : Table (List Page)) (page_rank : Table ℚ) : Table ℚ :=
  (keys corpus).foldl
    (fun acc page => setVal acc page
      (estimate_page_rank corpus d total_pages page_rank
        (lookupD backlinks page [])))
    page_rank

/-- Sequential in-place characterization of a round: each page's estimate
reads the table in which the pages processed earlier in the same round
already hold their new values. -/
def gsUpdate (corpus : Graph) (d : ℚ) (total_pages : Nat)
    (backlinks : Table (List Page)) : List Page → Table ℚ → Table ℚ
  | [], page_rank => page_rank
  | page :: rest, page_rank =>
      gsUpdate corpus d total_pages backlinks rest
        (setVal page_rank page
          (estimate_page_rank corpus d total_pages page_rank
            (lookupD backlinks page [])))

/-- Absolute changes |old - new| produced along one in-place pass, page by
page, in processing order. -/
def roundDiffs (corpus : Graph) (d : ℚ) (total_pages : Nat)
    (backlinks : Table (List Page)) : List Page → Table ℚ → List ℚ
  | [], _ => []
  | page :: rest, page_rank =>
      let estimate := estimate_page_rank corpus d total_pages page_rank
        (lookupD backlinks page [])
      |lookupD page_rank page 0 - estimate| ::
        roundDiffs corpus d total_pages backlinks rest
          (setVal page_rank page estimate)

theorem keys_fromkeys {α : Type} (ks : List Page) (v : α) :
    keys (fromkeys ks v) = ks := by
  induction ks with
  | nil => rfl
  | cons k ks ih => simp only [keys, fromkeys, List.map_cons] at *; rw [ih]

theorem keys_cons {α : Type} (a : Page) (b : α) (t : Table α) :
    keys ((a, b) :: t) = a :: keys t := rfl

theorem keys_addVal (t : Table ℚ) (p : Page) (v : ℚ) :
    keys (addVal t p v) = keys t := by
  induction t with
  | nil => rfl
  | cons e t ih =>
      obtain ⟨a, b⟩ := e
      by_cases h : a = p <;> simp [addVal, keys_cons, h, ih]

theorem keys_setVal {α : Type} (t : Table α) (p : Page) (v : α) :
    keys (setVal t p v) = keys t := by
  induction t with
  | nil => rfl
  | cons e t ih =>
      obtain ⟨a, b⟩ := e
      by_cases h : a = p <;> simp [setVal, keys_cons, h, ih]

theorem lookup_fromkeys {α : Type} (ks : List Page) (v : α) (p : Page)
    (hp : p ∈ ks) : lookup (fromkeys ks v) p = some v := by
  induction ks with
  | nil => cases hp
  | cons k ks ih =>
      rcases List.mem_cons.mp hp with h | h
      · simp [fromkeys, lookup, h]
      · by_cases hk : k = p
        · simp [fromkeys, lookup, hk]
        · simpa [fromkeys, lookup, hk] using ih h

theorem lookup_addVal_ne (t : Table ℚ) (p q : Page) (v : ℚ) (hq : q ≠ p) :
    lookup (addVal t p v) q = lookup t q := by
  induction t with
  | nil => rfl
  | cons e t ih =>
      obtain ⟨a, b⟩ := e
      by_cases h : a = p
      · subst h
        have h2 : a ≠ q := fun hc => hq hc.symm
        simp [addVal, lookup, h2, ih]
      · by_cases h2 : a = q <;> simp [addVal, lookup, h, h2, hq, ih]

theorem lookup_addVal_self (t : Table ℚ) (p : Page) (v : ℚ) :
    lookup (addVal t p v) p = (lookup t p).map (fun x => x + v) := by
  induction t with
  | nil => rfl
  | cons e t ih =>
      obtain ⟨a, b⟩ := e
      by_cases h : a = p
      · subst h
        simp [addVal, lookup]
      · simp [addVal, lookup, h, ih]

theorem valuesSum_fromkeys (ks : List Page) (v : ℚ) :
    valuesSum (fromkeys ks v) = (ks.length : ℚ) * v := by
  induction ks with
  | nil => simp [valuesSum, fromkeys]
  | cons k ks ih =>
      simp only [valuesSum, fromkeys, List.map_cons, List.sum_cons,
        List.length_cons] at *
      rw [ih]
      push_cast
      ring

theorem addVal_not_mem (t : Table ℚ) (p : Page) (v : ℚ) (hp : p ∉ keys t) :
    addVal t p v = t := by
  induction t with
  | nil => rfl
  | cons e t ih =>
      obtain ⟨a, b⟩ := e
      rw [keys_cons, List.mem_cons, not_or] at hp
      have h1 : a ≠ p := fun hc => hp.1 hc.symm
      rw [addVal, if_neg h1, ih hp.2]

theorem valuesSum_cons (a : Page) (b : ℚ) (t : Table ℚ) :
    valuesSum ((a, b) :: t) = b + valuesSum t := by
  simp [valuesSum]

theorem valuesSum_addVal (t : Table ℚ) (p : Page) (v : ℚ)
    (hnd : (keys t).Nodup) (hp : p ∈ keys t) :
    valuesSum (addVal t p v) = valuesSum t + v := by
  induction t with
  | nil => cases hp
  | cons e t ih =>
      obtain ⟨a, b⟩ := e
      rw [keys_cons, List.nodup_cons] at hnd
      rw [keys_cons, List.mem_cons] at hp
      rcases hp with h | h
      · have hnp : p ∉ keys t := h ▸ hnd.1
        rw [addVal, if_pos h.symm, valuesSum_cons, valuesSum_cons,
          addVal_not_mem t p v hnp]
        ring
      · have h1 : a ≠ p := fun hc => hnd.1 (hc ▸ h)
        rw [addVal, if_neg h1, valuesSum_cons, valuesSum_cons, ih hnd.2 h]
        ring

theorem keys_foldl_addVal (links : List Page) (c : ℚ) (dist : Table ℚ) :
    keys (links.foldl (fun dst lp => addVal dst lp c) dist) = keys dist := by
  induction links generalizing dist with
  | nil => rfl
  | cons l ls ih => rw [List.foldl_cons, ih, keys_addVal]

theorem lookup_foldl_addVal_not_mem (links : List Page) (c : ℚ)
    (dist : Table ℚ) (q : Page) (hq : q ∉ links) :
    lookup (links.foldl (fun dst lp => addVal dst lp c) dist) q
      = lookup dist q := by
  induction links generalizing dist with
  | nil => rfl
  | cons l ls ih =>
      rw [List.mem_cons, not_or] at hq
      rw [List.foldl_cons, ih _ hq.2, lookup_addVal_ne _ _ _ _ hq.1]

theorem lookup_foldl_addVal_mem (links : List Page) (c : ℚ) (dist : Table ℚ)
    (q : Page) (hnd : links.Nodup) (hq : q ∈ links) :
    lookup (links.foldl (fun dst lp => addVal dst lp c) dist) q
      = (lookup dist q).map (fun x => x + c) := by
  induction links generalizing dist with
  | nil => cases hq
  | cons l ls ih =>
      rw [List.nodup_cons] at hnd
      rcases List.mem_cons.mp hq with h | h
      · subst h
        rw [List.foldl_cons, lookup_foldl_addVal_not_mem ls c _ q hnd.1,
          lookup_addVal_self]
      · have hlq : q ≠ l := fun hc => hnd.1 (hc ▸ h)
        rw [List.foldl_cons, ih _ hnd.2 h, lookup_addVal_ne _ _ _ _ hlq]

theorem valuesSum_foldl_addVal (links : List Page) (c : ℚ) (dist : Table ℚ)
    (hnd : (keys dist).Nodup) (hsub : ∀ l ∈ links, l ∈ keys dist) :
    valuesSum (links.foldl (fun dst lp => addVal dst lp c) dist)
      = valuesSum dist + (links.length : ℚ) * c := by
  induction links generalizing dist with
  | nil => simp
  | cons l ls ih =>
      have h1 : (keys (addVal dist l c)).Nodup := by
        rw [keys_addVal]; exact hnd
      have h2 : ∀ x ∈ ls, x ∈ keys (addVal dist l c) := by
        intro x hx; rw [keys_addVal]; exact hsub x (List.mem_cons_of_mem _ hx)
      rw [List.foldl_cons, ih _ h1 h2,
        valuesSum_addVal dist l c hnd (hsub l (List.mem_cons_self _ _)),
        List.length_cons]
      push_cast
      ring

theorem transition_model_of_no_links (corpus : Graph) (p : Page) (d : ℚ)
    (h : getLinks corpus p = []) :
    transition_model corpus p d
      = fromkeys (keys corpus) (1 / (corpus.length : ℚ)) := by
  rw [transition_model]
  simp [h]

theorem transition_model_of_links (corpus : Graph) (p : Page) (d : ℚ)
    (h : getLinks corpus p ≠ []) :
    transition_model corpus p d
      = (getLinks corpus p).foldl
          (fun dst lp => addVal dst lp (d / ((getLinks corpus p).length : ℚ)))
          (fromkeys (keys corpus) ((1 - d) / (corpus.length : ℚ))) := by
  rw [transition_model]
  simp only [if_neg (fun hc => h (List.length_eq_zero.mp hc))]

/-- Claim C3: for every non-empty graph, page p with a non-empty link set,
and damping d in [0,1], transition_model assigns exactly (1-d)/total_pages
to every page not in graph[p], (1-d)/total_pages + d/num_links to every
page in graph[p], the result is defined over exactly the keys of the graph,
and its values sum to 1. -/
theorem transition_model_linked_pages (corpus : Graph) (p : Page) (d : ℚ)
    (hnd : (keys corpus).Nodup)
    (hne : corpus ≠ [])
    (hp : p ∈ keys corpus)
    (hl : getLinks corpus p ≠ [])
    (hlnd : (getLinks corpus p).Nodup)
    (hsub : ∀ q ∈ getLinks corpus p, q ∈ keys corpus)
    (hd0 : 0 ≤ d) (hd1 : d ≤ 1) :
    keys (transition_model corpus p d) = keys corpus ∧
    (∀ q ∈ keys corpus, q ∉ getLinks corpus p →
        lookup (transition_model corpus p d) q
          = some ((1 - d) / (corpus.length : ℚ))) ∧
    (∀ q ∈ getLinks corpus p,
        lookup (transition_model corpus p d) q
          = some ((1 - d) / (corpus.length : ℚ)
              + d / ((getLinks corpus p).length : ℚ))) ∧
    valuesSum (transition_model corpus p d) = 1 := by
  rw [transition_model_of_links corpus p d hl]
  refine ⟨?_, ?_, ?_, ?_⟩
  · rw [keys_foldl_addVal, keys_fromkeys]
  · intro q hq hql
    rw [lookup_foldl_addVal_not_mem _ _ _ _ hql, lookup_fromkeys _ _ _ hq]
  · intro q hq
    rw [lookup_foldl_addVal_mem _ _ _ _ hlnd hq,
      lookup_fromkeys _ _ _ (hsub q hq)]
    simp
  · have hks : ∀ l ∈ getLinks corpus p,
        l ∈ keys (fromkeys (keys corpus) ((1 - d) / (corpus.length : ℚ))) := by
      intro l hl2
      rw [keys_fromkeys]
      exact hsub l hl2
    have hnd2 : (keys (fromkeys (keys corpus)
        ((1 - d) / (corpus.length : ℚ)))).Nodup := by
      rw [keys_fromkeys]
      exact hnd
    rw [valuesSum_foldl_addVal _ _ _ hnd2 hks, valuesSum_fromkeys]
    have h1 : ((corpus.length : ℚ)) ≠ 0 := by
      have h0 : corpus.length ≠ 0 := fun hc => hne (List.length_eq_zero.mp hc)
      exact_mod_cast h0
    have h2 : (((getLinks corpus p).length : ℚ)) ≠ 0 := by
      have h0 : (getLinks corpus p).length ≠ 0 :=
        fun hc => hl (List.length_eq_zero.mp hc)
      exact_mod_cast h0
    rw [show (keys corpus).length = corpus.length from List.length_map _ _]
    field_simp

/-- Witness for C3 on the three-page chain graph at page A. -/
theorem transition_model_linked_pages_witness :
    lookup (transition_model chainGraph "A" (17/20)) "B"
        = some ((1 - 17/20) / ((chainGraph.length : ℚ))
            + (17/20) / (((getLinks chainGraph "A").length : ℚ))) ∧
    valuesSum (transition_model chainGraph "A" (17/20)) = 1 :=
  ⟨(transition_model_linked_pages chainGraph "A" (17/20) (by decide) (by decide)
      (by decide) (by decide) (by decide) (by decide) (by norm_num)
      (by norm_num)).2.2.1 "B" (by decide),
   (transition_model_linked_pages chainGraph "A" (17/20) (by decide) (by decide)
      (by decide) (by decide) (by decide) (by decide) (by norm_num)
      (by norm_num)).2.2.2⟩

/-- Claim C4: for every non-empty graph, dangling page p (empty link set),
and damping d in [0,1], transition_model is exactly the uniform
distribution assigning 1/total_pages to every page, independent of d. -/
theorem transition_model_dangling_uniform (corpus : Graph) (p : Page) (d : ℚ)
    (hne : corpus ≠ [])
    (hp : p ∈ keys corpus)
    (hdang : getLinks corpus p = [])
    (hd0 : 0 ≤ d) (hd1 : d ≤ 1) :
    transition_model corpus p d
        = fromkeys (keys corpus) (1 / (corpus.length : ℚ)) ∧
    (∀ q ∈ keys corpus,
        lookup (transition_model corpus p d) q
          = some (1 / (corpus.length : ℚ))) ∧
    (∀ e : ℚ, transition_model corpus p e = transition_model corpus p d) := by
  refine ⟨transition_model_of_no_links corpus p d hdang, ?_, ?_⟩
  · intro q hq
    rw [transition_model_of_no_links corpus p d hdang, lookup_fromkeys _ _ _ hq]
  · intro e
    rw [transition_model_of_no_links corpus p d hdang,
      transition_model_of_no_links corpus p e hdang]

/-- Witness for C4 on the three-page chain graph at the dangling page C. -/
theorem transition_model_dangling_uniform_witness :
    transition_model chainGraph "C" (17/20)
      = fromkeys (keys chainGraph) (1 / ((chainGraph.length : ℚ))) :=
  (transition_model_dangling_uniform chainGraph "C" (17/20) (by decide)
      (by decide) (by decide) (by norm_num) (by norm_num)).1

theorem lookup_tabulate {α : Type} (ks : List Page) (f : Page → α) (p : Page)
    (hnd : ks.Nodup) (hp : p ∈ ks) :
    lookup (ks.map (fun k => (k, f k))) p = some (f p) := by
  induction ks with
  | nil => cases hp
  | cons k ks ih =>
      rw [List.nodup_cons] at hnd
      rcases List.mem_cons.mp hp with h | h
      · subst h
        simp [lookup]
      · have hk : k ≠ p := fun hc => hnd.1 (hc ▸ h)
        simp only [List.map_cons, lookup, if_neg hk]
        exact ih hnd.2 h

theorem lookupD_linking_pages_dict (corpus : Graph) (p : Page)
    (hnd : (keys corpus).Nodup) (hp : p ∈ keys corpus) :
    lookupD (linking_pages_dict corpus) p []
      = (keys corpus).filter
          (fun lp => decide (p ∈ getLinks corpus lp ∨ getLinks corpus lp = [])) := by
  rw [linking_pages_dict, lookupD, lookup_tabulate (keys corpus) _ p hnd hp]
  rfl

/-- Claim C6: in the backlink index built by iterate_pagerank, q is in the
backlink list of p iff p is in graph[q] or graph[q] is empty; in
particular a dangling page q appears in the backlink list of every page p,
including p = q itself. -/
theorem linking_pages_dict_membership (corpus : Graph) (p q : Page)
    (hnd : (keys corpus).Nodup) (hp : p ∈ keys corpus)
    (hq : q ∈ keys corpus) :
    (q ∈ lookupD (linking_pages_dict corpus) p [] ↔
      (p ∈ getLinks corpus q ∨ getLinks corpus q = [])) ∧
    (getLinks corpus q = [] → q ∈ lookupD (linking_pages_dict corpus) p []) := by
  rw [lookupD_linking_pages_dict corpus p hnd hp]
  constructor
  · rw [List.mem_filter]
    constructor
    · intro h2
      exact of_decide_eq_true h2.2
    · intro h2
      exact ⟨hq, decide_eq_true h2⟩
  · intro hdang
    rw [List.mem_filter]
    exact ⟨hq, decide_eq_true (Or.inr hdang)⟩

/-- Witness for C6 on the three-page chain graph: the dangling page C is a
backlink of C itself. -/
theorem linking_pages_dict_membership_witness :
    ("C" ∈ lookupD (linking_pages_dict chainGraph) "C" [] ↔
      ("C" ∈ getLinks chainGraph "C" ∨ getLinks chainGraph "C" = [])) ∧
    (getLinks chainGraph "C" = [] →
      "C" ∈ lookupD (linking_pages_dict chainGraph) "C" []) :=
  linking_pages_dict_membership chainGraph "C" "C" (by decide) (by decide)
    (by decide)

/-- Claim C1 (amended): one pass of the convergence loop updates the rank
table sequentially in place — the table it returns is the result of
updating each page, in corpus order, from the table in which the pages
processed earlier in the same round already hold their new estimates. -/
theorem iterateRound_fst_eq_gsUpdate (corpus : Graph) (d : ℚ)
    (total_pages : Nat) (backlinks : Table (List Page)) (ps : List Page)
    (pr : Table ℚ) (fl : Bool) :
    (iterateRound corpus d total_pages backlinks ps pr fl).1
      = gsUpdate corpus d total_pages backlinks ps pr := by
  induction ps generalizing pr fl with
  | nil => rfl
  | cons page rest ih =>
      simp only [iterateRound, gsUpdate]
      exact ih _ _

/-- Counterexample to C1 as stated: on the three-page chain with damping
0.85, the first round of the convergence loop, started from the uniform
initial table, yields a table different from the snapshot round in which
every estimate reads only start-of-round values — the estimates for B and
C read values already updated earlier in the same round. -/
theorem iterateRound_ne_snapshotRound :
    (iterateRound chainGraph (17/20) 3 (linking_pages_dict chainGraph)
        (keys chainGraph) (fromkeys (keys chainGraph) (1/(3:ℚ))) false).1
      ≠ snapshotRound chainGraph (17/20) 3 (linking_pages_dict chainGraph)
          (fromkeys (keys chainGraph) (1/(3:ℚ))) := by
  simp +decide only [iterateRound, snapshotRound, estimate_page_rank,
    linking_pages_dict, getLinks, lookupD, lookup, keys, fromkeys, setVal,
    chainGraph, threshold, List.foldl, List.filter, List.map, Option.getD,
    List.length]
  norm_num

theorem iterateRound_snd_true_iff (corpus : Graph) (d : ℚ)
    (total_pages : Nat) (backlinks : Table (List Page)) (ps : List Page)
    (pr : Table ℚ) (fl : Bool) :
    (iterateRound corpus d total_pages backlinks ps pr fl).2 = true ↔
      (fl = true ∨
        ∃ x ∈ roundDiffs corpus d total_pages backlinks ps pr,
          threshold < x) := by
  induction ps generalizing pr fl with
  | nil => simp [iterateRound, roundDiffs]
  | cons page rest ih =>
      simp only [iterateRound, roundDiffs]
      generalize estimate_page_rank corpus d total_pages pr
        (lookupD backlinks page []) = est
      generalize lookupD pr page 0 = cur
      rw [ih]
      have habs : (threshold < cur - est ∨ threshold < est - cur)
          ↔ threshold < |cur - est| := by
        rw [lt_abs, neg_sub]
      by_cases hc : threshold < |cur - est|
      · rw [if_pos (habs.mpr hc)]
        simp [List.mem_cons, exists_eq_or_imp, hc]
      · rw [if_neg (fun h2 => hc (habs.mp h2))]
        simp [List.mem_cons, exists_eq_or_imp, hc]

theorem iterLoop_exit (corpus : Graph) (d : ℚ) (total_pages : Nat)
    (backlinks : Table (List Page)) (fuel : Nat) (pr r : Table ℚ)
    (h : iterLoop corpus d total_pages backlinks fuel pr = some r) :
    ∃ q : Table ℚ,
      iterateRound corpus d total_pages backlinks (keys corpus) q false
        = (r, false) := by
  induction fuel generalizing pr with
  | zero => cases h
  | succ k ih =>
      rw [iterLoop] at h
      rcases hr : iterateRound corpus d total_pages backlinks (keys corpus)
          pr false with ⟨pr2, fl⟩
      rw [hr] at h
      cases fl with
      | false =>
          refine ⟨pr, ?_⟩
          rw [hr]
          injection h with h2
          rw [h2]
      | true => exact ih pr2 h

/-- Claim C7: the convergence loop exits iff in its final round every
page's absolute change is within the inclusive 0.001 threshold (a round
with any larger change keeps looping), and the returned table carries that
final round's updates. -/
theorem iterate_loop_exit_condition (corpus : Graph) (d : ℚ)
    (total_pages : Nat) (backlinks : Table (List Page)) :
    (∀ pr : Table ℚ,
      ((iterateRound corpus d total_pages backlinks (keys corpus) pr
          false).2 = false
        ↔ ∀ x ∈ roundDiffs corpus d total_pages backlinks (keys corpus) pr,
            x ≤ threshold)) ∧
    (∀ (fuel : Nat) (pr r : Table ℚ),
      iterLoop corpus d total_pages backlinks fuel pr = some r →
      ∃ q : Table ℚ,
        iterateRound corpus d total_pages backlinks (keys corpus) q false
          = (r, false)) := by
  constructor
  · intro pr
    rw [Bool.eq_false_iff, Ne, iterateRound_snd_true_iff]
    push_neg
    simp [not_lt]
  · intro fuel pr r h
    exact iterLoop_exit corpus d total_pages backlinks fuel pr r h

/-- Witness for C7 on the single-page graph: the loop returns the table of
a round whose flag is false. -/
theorem iterate_loop_exit_condition_witness :
    ∃ q : Table ℚ,
      iterateRound singleGraph (17/20) 1 (linking_pages_dict singleGraph)
        (keys singleGraph) q false = ([("A", 1)], false) :=
  (iterate_loop_exit_condition singleGraph (17/20) 1
      (linking_pages_dict singleGraph)).2 1 [("A", 1)] [("A", 1)]
    (by norm_num [iterLoop, iterateRound, estimate_page_rank,
      linking_pages_dict, getLinks, lookupD, lookup, keys, fromkeys,
      setVal, singleGraph, threshold])

theorem keys_transition_model (corpus : Graph) (p : Page) (d : ℚ) :
    keys (transition_model corpus p d) = keys corpus := by
  by_cases h : getLinks corpus p = []
  · rw [transition_model_of_no_links corpus p d h, keys_fromkeys]
  · rw [transition_model_of_links corpus p d h, keys_foldl_addVal,
      keys_fromkeys]

theorem keys_ne_nil (corpus : Graph) (hne : corpus ≠ []) :
    keys corpus ≠ [] := by
  intro hc
  exact hne (List.map_eq_nil_iff.mp hc)

theorem keys_incr (t : Table Nat) (p : Page) : keys (incr t p) = keys t := by
  induction t with
  | nil => rfl
  | cons e t ih =>
      obtain ⟨a, c⟩ := e
      by_cases h : a = p <;> simp [incr, keys_cons, h, ih]

theorem incr_not_mem (t : Table Nat) (p : Page) (hp : p ∉ keys t) :
    incr t p = t := by
  induction t with
  | nil => rfl
  | cons e t ih =>
      obtain ⟨a, c⟩ := e
      rw [keys_cons, List.mem_cons, not_or] at hp
      have h1 : a ≠ p := fun hc => hp.1 hc.symm
      rw [incr, if_neg h1, ih hp.2]

theorem countsSum_cons (a : Page) (c : Nat) (t : Table Nat) :
    countsSum ((a, c) :: t) = c + countsSum t := by
  simp [countsSum]

theorem countsSum_incr (t : Table Nat) (p : Page)
    (hnd : (keys t).Nodup) (hp : p ∈ keys t) :
    countsSum (incr t p) = countsSum t + 1 := by
  induction t with
  | nil => cases hp
  | cons e t ih =>
      obtain ⟨a, c⟩ := e
      rw [keys_cons, List.nodup_cons] at hnd
      rw [keys_cons, List.mem_cons] at hp
      rcases hp with h | h
      · have hnp : p ∉ keys t := h ▸ hnd.1
        rw [incr, if_pos h.symm, countsSum_cons, countsSum_cons,
          incr_not_mem t p hnp]
        omega
      · have h1 : a ≠ p := fun hc => hnd.1 (hc ▸ h)
        rw [incr, if_neg h1, countsSum_cons, countsSum_cons, ih hnd.2 h]
        omega

theorem countsSum_fromkeys_zero (ks : List Page) :
    countsSum (fromkeys ks 0) = 0 := by
  induction ks with
  | nil => rfl
  | cons k ks ih =>
      rw [fromkeys, List.map_cons]
      rw [countsSum_cons]
      simpa [fromkeys] using ih

theorem pick_mem (l : List Page) (i : Nat) (h : l ≠ []) : pick l i ∈ l := by
  have hlen : 0 < l.length := List.length_pos.mpr h
  have hm : i % l.length < l.length := Nat.mod_lt _ hlen
  rw [pick, List.getD_eq_getElem _ _ hm]
  exact List.getElem_mem hm

theorem keys_sampleSteps (corpus : Graph) (d : ℚ) (o : Nat → Nat)
    (k : Nat) : ∀ (i : Nat) (samples : Table Nat) (dist : Table ℚ),
    keys (sampleSteps corpus d o k i samples dist) = keys samples := by
  induction k with
  | zero => intro i samples dist; rfl
  | succ k ih =>
      intro i samples dist
      rw [sampleSteps]
      rw [ih, keys_incr]

theorem countsSum_sampleSteps (corpus : Graph) (d : ℚ) (o : Nat → Nat)
    (hne : corpus ≠ []) (hnd : (keys corpus).Nodup) (k : Nat) :
    ∀ (i : Nat) (samples : Table Nat) (dist : Table ℚ),
    keys samples = keys corpus → keys dist = keys corpus →
    countsSum (sampleSteps corpus d o k i samples dist)
      = countsSum samples + k := by
  induction k with
  | zero => intro i samples dist _ _; rfl
  | succ k ih =>
      intro i samples dist hks hkd
      rw [sampleSteps]
      have hpage : pick (keys dist) (o i) ∈ keys samples := by
        rw [hks, ← hkd]
        exact pick_mem _ _ (by rw [hkd]; exact keys_ne_nil corpus hne)
      rw [ih (i + 1) _ _ (by rw [keys_incr, hks])
          (keys_transition_model corpus _ d),
        countsSum_incr samples _ (hks ▸ hnd) hpage]
      omega

theorem valuesSum_map_div (t : Table Nat) (q : ℚ) :
    valuesSum (t.map (fun e => (e.1, (e.2 : ℚ) / q)))
      = (countsSum t : ℚ) / q := by
  induction t with
  | nil => simp [valuesSum, countsSum]
  | cons e t ih =>
      obtain ⟨a, c⟩ := e
      rw [List.map_cons]
      rw [valuesSum_cons, countsSum_cons, ih]
      push_cast
      rw [add_div]

theorem keys_sampleCounts (corpus : Graph) (d : ℚ) (n : Nat)
    (o : Nat → Nat) : keys (sampleCounts corpus d n o) = keys corpus := by
  rw [sampleCounts]
  rw [keys_sampleSteps, keys_incr, keys_fromkeys]

/-- Claim C5: for every non-empty graph, damping, n >= 1 and outcome of
the random source, the visit counts of sample_pagerank sum to exactly n,
and the returned rank table, each count divided by n, sums to exactly 1. -/
theorem sample_pagerank_counts_sum (corpus : Graph) (d : ℚ) (n : Nat)
    (o : Nat → Nat) (hnd : (keys corpus).Nodup) (hne : corpus ≠ [])
    (hn : 1 ≤ n) :
    countsSum (sampleCounts corpus d n o) = n ∧
    ∃ pr, sample_pagerank corpus d n o = .ok pr ∧ valuesSum pr = 1 := by
  have hkeysne : keys corpus ≠ [] := keys_ne_nil corpus hne
  have hcounts : countsSum (sampleCounts corpus d n o) = n := by
    rw [sampleCounts]
    rw [countsSum_sampleSteps corpus d o hne hnd (n - 1) 1 _ _
        (by rw [keys_incr, keys_fromkeys])
        (keys_transition_model corpus _ d),
      countsSum_incr _ _ (by rw [keys_fromkeys]; exact hnd)
        (by rw [keys_fromkeys]; exact pick_mem _ _ hkeysne),
      countsSum_fromkeys_zero]
    omega
  refine ⟨hcounts, ⟨(sampleCounts corpus d n o).map
    (fun e => (e.1, (e.2 : ℚ) / (n : ℚ))), ?_, ?_⟩⟩
  · rw [sample_pagerank, if_neg hkeysne, if_neg (by omega)]
  · rw [valuesSum_map_div, hcounts]
    have hn0 : (n : ℚ) ≠ 0 := by
      exact_mod_cast Nat.one_le_iff_ne_zero.mp hn
    exact div_self hn0

/-- Witness for C5 on the single-page graph with n = 3 and the constant
oracle. -/
theorem sample_pagerank_counts_sum_witness :
    countsSum (sampleCounts singleGraph (17/20) 3 (fun _ => 0)) = 3 ∧
    ∃ pr, sample_pagerank singleGraph (17/20) 3 (fun _ => 0) = .ok pr ∧
      valuesSum pr = 1 :=
  sample_pagerank_counts_sum singleGraph (17/20) 3 (fun _ => 0) (by decide)
    (by decide) (by decide)

theorem pick_single (j : Nat) : pick ["A"] j = "A" := by
  rw [pick]
  simp [Nat.mod_one]

theorem sampleSteps_single (d : ℚ) (o : Nat → Nat) (k : Nat) :
    ∀ (i c : Nat) (dist : Table ℚ), keys dist = ["A"] →
    sampleSteps singleGraph d o k i [("A", c)] dist = [("A", c + k)] := by
  induction k with
  | zero => intro i c dist _; rfl
  | succ k ih =>
      intro i c dist hkd
      rw [sampleSteps]
      rw [hkd, pick_single]
      have hincr : incr [("A", c)] "A" = [("A", c + 1)] := by simp [incr]
      rw [hincr, ih (i + 1) (c + 1) _ (keys_transition_model singleGraph _ d)]
      have harith : c + 1 + k = c + (k + 1) := by omega
      rw [harith]

theorem sample_pagerank_single (d : ℚ) (n : Nat) (o : Nat → Nat)
    (hn : 1 ≤ n) : sample_pagerank singleGraph d n o = .ok [("A", 1)] := by
  have hn0 : (n : ℚ) ≠ 0 := by
    exact_mod_cast Nat.one_le_iff_ne_zero.mp hn
  have hcounts : sampleCounts singleGraph d n o = [("A", n)] := by
    rw [sampleCounts]
    have hk : keys singleGraph = ["A"] := rfl
    rw [hk, pick_single]
    have hincr : incr (fromkeys ["A"] 0) "A" = [("A", 1)] := by
      simp [incr, fromkeys]
    rw [hincr, sampleSteps_single d o (n - 1) 1 1 _
      (keys_transition_model singleGraph _ d)]
    have harith : 1 + (n - 1) = n := by omega
    rw [harith]
  rw [sample_pagerank, if_neg (by decide), if_neg (by omega), hcounts]
  simp [div_self hn0]

/-- Claim C9: on the single-page graph {A: {}} with damping 0.85, both
estimators return the table assigning rank 1 to A — sample_pagerank for
every n >= 1 and every outcome of the random source, iterate_pagerank for
every sufficient fuel. -/
theorem single_page_graph_results (n fuel : Nat) (o : Nat → Nat)
    (hn : 1 ≤ n) (hf : 1 ≤ fuel) :
    sample_pagerank singleGraph (17/20) n o = .ok [("A", 1)] ∧
    iterate_pagerank singleGraph (17/20) fuel = some (.ok [("A", 1)]) := by
  refine ⟨sample_pagerank_single (17/20) n o hn, ?_⟩
  have hround : iterateRound singleGraph (17/20) singleGraph.length
      (linking_pages_dict singleGraph) (keys singleGraph)
      (fromkeys (keys singleGraph) (1 / ((singleGraph.length : ℚ)))) false
      = ([("A", 1)], false) := by
    norm_num [iterateRound, estimate_page_rank, linking_pages_dict,
      getLinks, lookupD, lookup, keys, fromkeys, setVal, singleGraph,
      threshold]
  obtain ⟨k, rfl⟩ : ∃ k, fuel = k + 1 := ⟨fuel - 1, by omega⟩
  rw [iterate_pagerank]
  rw [if_neg (by decide)]
  rw [iterLoop, hround]
  rfl

/-- Witness for C9 at n = 3, fuel = 2 and the constant oracle. -/
theorem single_page_graph_results_witness :
    sample_pagerank singleGraph (17/20) 3 (fun _ => 0) = .ok [("A", 1)] ∧
    iterate_pagerank singleGraph (17/20) 2 = some (.ok [("A", 1)]) :=
  single_page_graph_results 3 2 (fun _ => 0) (by decide) (by decide)

theorem keys_map_value {α β : Type} (t : Table α) (f : Page × α → β) :
    keys (t.map (fun e => (e.1, f e))) = keys t := by
  induction t with
  | nil => rfl
  | cons e t ih =>
      obtain ⟨a, b⟩ := e
      simp only [List.map_cons, keys_cons]
      rw [ih]

theorem keys_iterateRound_fst (corpus : Graph) (d : ℚ) (total_pages : Nat)
    (backlinks : Table (List Page)) (ps : List Page) :
    ∀ (pr : Table ℚ) (fl : Bool),
    keys ((iterateRound corpus d total_pages backlinks ps pr fl).1)
      = keys pr := by
  induction ps with
  | nil => intro pr fl; rfl
  | cons page rest ih =>
      intro pr fl
      simp only [iterateRound]
      rw [ih, keys_setVal]

theorem keys_iterLoop (corpus : Graph) (d : ℚ) (total_pages : Nat)
    (backlinks : Table (List Page)) (fuel : Nat) :
    ∀ (pr r : Table ℚ),
    iterLoop corpus d total_pages backlinks fuel pr = some r →
    keys r = keys pr := by
  induction fuel with
  | zero => intro pr r h; cases h
  | succ k ih =>
      intro pr r h
      rw [iterLoop] at h
      rcases hr : iterateRound corpus d total_pages backlinks (keys corpus)
          pr false with ⟨pr2, fl⟩
      rw [hr] at h
      have hk2 : keys pr2 = keys pr := by
        have h3 := keys_iterateRound_fst corpus d total_pages backlinks
          (keys corpus) pr false
        rw [hr] at h3
        exact h3
      cases fl with
      | false =>
          injection h with h2
          rw [← h2, hk2]
      | true => rw [ih pr2 r h, hk2]

/-- Claim C10: whenever sample_pagerank returns a rank table and
iterate_pagerank returns a rank table, each table's key list is exactly
the graph's key list — every page of the graph and nothing else. -/
theorem result_keys_eq_graph_keys (corpus : Graph) (d e : ℚ) (n : Nat)
    (o : Nat → Nat) (fuel : Nat) (pr r : Table ℚ)
    (hs : sample_pagerank corpus d n o = .ok pr)
    (hi : iterate_pagerank corpus e fuel = some (.ok r)) :
    keys pr = keys corpus ∧ keys r = keys corpus := by
  constructor
  · rw [sample_pagerank] at hs
    by_cases h1 : keys corpus = []
    · rw [if_pos h1] at hs
      cases hs
    · rw [if_neg h1] at hs
      by_cases h2 : n = 0
      · rw [if_pos h2] at hs
        cases hs
      · rw [if_neg h2] at hs
        injection hs with h3
        rw [← h3, keys_map_value, keys_sampleCounts]
  · rw [iterate_pagerank] at hi
    by_cases h1 : corpus.length = 0
    · rw [if_pos h1] at hi
      injection hi with h2
      cases h2
    · rw [if_neg h1] at hi
      rcases h2 : iterLoop corpus e corpus.length (linking_pages_dict corpus)
          fuel (fromkeys (keys corpus) (1 / (corpus.length : ℚ))) with _ | a
      · rw [h2] at hi
        cases hi
      · rw [h2] at hi
        injection hi with h3
        injection h3 with h4
        rw [← h4, keys_iterLoop corpus e corpus.length
          (linking_pages_dict corpus) fuel _ a h2, keys_fromkeys]

/-- Witness for C10 on the single-page graph. -/
theorem result_keys_eq_graph_keys_witness :
    keys ([("A", (1:ℚ))]) = keys singleGraph ∧
    keys ([("A", (1:ℚ))]) = keys singleGraph :=
  result_keys_eq_graph_keys singleGraph (17/20) (17/20) 1 (fun _ => 0) 1
    [("A", 1)] [("A", 1)]
    (by
      have h1 : (1:Nat) ≤ 1 := le_refl 1
      norm_num [sample_pagerank, sampleCounts, sampleSteps, pick,
        transition_model, getLinks, lookupD, lookup, keys, fromkeys, incr,
        singleGraph])
    (by
      norm_num [iterate_pagerank, iterLoop, iterateRound,
        estimate_page_rank, linking_pages_dict, getLinks, lookupD, lookup,
        keys, fromkeys, setVal, singleGraph, threshold])

/-- Counterexample to C2 as stated: on the empty graph neither function
fails with the EmptyGraphError condition named by the spec —
sample_pagerank fails with IndexError and iterate_pagerank with
ZeroDivisionError. -/
theorem empty_graph_no_emptyGraphError :
    sample_pagerank [] (17/20) 10 (fun _ => 0) ≠
      Except.error Err.emptyGraphError ∧
    iterate_pagerank [] (17/20) 10 ≠
      some (Except.error Err.emptyGraphError) := by
  constructor
  · intro h
    have h2 : Except.error (ε := Err) (α := Table ℚ) Err.indexError
        = Except.error Err.emptyGraphError := h
    simp at h2
  · intro h
    have h2 : some (Except.error (ε := Err) (α := Table ℚ)
          Err.zeroDivisionError)
        = some (Except.error Err.emptyGraphError) := h
    simp at h2

/-- Claim C2 (amended): on the empty graph both estimators fail before
producing any rank value, but not through a dedicated EmptyGraphError
check — sample_pagerank raises IndexError at the initial random.choice on
the empty key list, and iterate_pagerank raises ZeroDivisionError at the
1/total_pages initialization, after the (vacuous) backlink-index
construction. -/
theorem empty_graph_failure (d : ℚ) (n fuel : Nat) (o : Nat → Nat) :
    sample_pagerank [] d n o = .error .indexError ∧
    iterate_pagerank [] d fuel = some (.error .zeroDivisionError) :=
  ⟨rfl, rfl⟩

end PageRank
